import Mathlib

/-!
Verification of the `sourced-repo-dynamodb` Repository against its source.

The development embeds the repository's key encoding (`getPaddedVersion`,
the `PK`/`SK` construction), the `commit`/`get`/`getAll`/`commitAll`
operations, and the DynamoDB store interface (`Put` upsert semantics and
descending `Query` with a sort-key prefix and a limit) as executable Lean
definitions, and proves the claimed properties about them.

Machine numbers: all versions and counters are natural numbers; the source
manipulates them as JavaScript numbers but only ever adds 1 and compares,
far below any overflow boundary, so `Nat` is a faithful model.

Layout: all definitions first, then the supporting lemmas and the claim
theorems.
-/

namespace SourcedDynamo

/-! ## Definitions

### Decimal representation and the padded version encoding

`Repository.getPaddedVersion(version)` is `version.toString().padStart(15, '0')`.
We model the decimal string as its list of digit values (most significant
first); the characters are recovered with `Nat.digitChar`.
-/

/-- Big-endian decimal digits of `n`, computed with explicit fuel so that the
definition is structurally recursive. `decRep (n+1) n` is the digit string of
`n.toString()` (for `n = 0` it is `[0]`, matching `"0"`). -/
def decRep (fuel n : Nat) : List Nat :=
  match fuel with
  | 0 => []
  | fuel + 1 => if n < 10 then [n] else decRep fuel (n / 10) ++ [n % 10]

/-- The decimal digit string of `version.toString()`. -/
def decDigits (n : Nat) : List Nat := decRep (n + 1) n

/-- `String.prototype.padStart(15, '0')` on a digit string. -/
def padStart15 (l : List Nat) : List Nat := List.replicate (15 - l.length) 0 ++ l

/-- `Repository.getPaddedVersion` (src/unnamed/part_001:236-238): the decimal
representation of `version`, left-padded with zeros to 15 digits. -/
def getPaddedVersion (v : Nat) : List Nat := padStart15 (decDigits v)

/-- Numeric value of a big-endian digit string. -/
def valBE : List Nat → Nat
  | [] => 0
  | d :: l => d * 10 ^ l.length + valBE l

/-- Boolean "less or equal" in lexicographic character order: the order in
which the backing store compares string sort keys. -/
def charListLe : List Char → List Char → Bool
  | [], _ => true
  | _ :: _, [] => false
  | a :: as, b :: bs => if a < b then true else if b < a then false else charListLe as bs

/-! ### The key encoder

`commit` (src/unnamed/part_001:161-196) builds, for an entity type name
`entityName = entityType.name.toLowerCase()`:
  partition key `PK = "{entityName}#{id}"`,
  event sort key `SK = "{entityName}events#{getPaddedVersion(version)}"`,
  snapshot sort key `SK = "{entityName}snapshots#{getPaddedVersion(version)}"`.
-/

/-- Record kind: the two families of stored items. -/
inductive RecordKind : Type
  | events
  | snapshots
deriving DecidableEq, Repr

/-- The literal kind fragment of the sort key: `"events#"` or `"snapshots#"`. -/
def kindTag : RecordKind → List Char
  | .events => ['e', 'v', 'e', 'n', 't', 's', '#']
  | .snapshots => ['s', 'n', 'a', 'p', 's', 'h', 'o', 't', 's', '#']

/-- The sort-key encoding: `"{entityName}{kind}#{paddedVersion}"` as characters. -/
def sortKey (entityName : List Char) (kind : RecordKind) (v : Nat) : List Char :=
  entityName ++ kindTag kind ++ (getPaddedVersion v).map Nat.digitChar

/-! ### Data model

The Entity collaborator comes from the external `sourced` package; the spec
specifies it only at its interface boundary (readable `id`, `version`,
`snapshotVersion`, queues `newEvents`/`eventsToEmit`, `snapshot()`,
a notification entry point). Domain state is abstracted as one `Nat`
(`state`), which the Repository never inspects.
-/

/-- An event record `{method, timestamp, version}` as staged by `digest` and
persisted verbatim in the item's `data` attribute. -/
structure Event where
  method : String
  timestamp : Nat
  version : Nat
deriving DecidableEq, Repr

/-- The payload produced by `Entity.snapshot()`: a clone of the entity's full
state with the bookkeeping queues stripped (`trimSnapshot`). -/
structure SnapshotPayload where
  id : List Char
  version : Nat
  snapshotVersion : Nat
  state : Nat
deriving DecidableEq, Repr

/-- The Entity collaborator's observable fields. `id` is its character string. -/
structure Entity where
  id : List Char
  version : Nat
  snapshotVersion : Nat
  state : Nat
  newEvents : List Event
  eventsToEmit : List String
deriving DecidableEq, Repr

/-- Modelled from the spec: `Entity.snapshot()` of the external `sourced`
collaborator (not part of this repository's sources). It records the current
`version` as `snapshotVersion` on the entity and returns the full-state
payload tagged with the current version (spec §3 data model, §8 scenario A:
after a forced commit at version 3 the rehydrated entity has
`snapshotVersion = 3`, so the persisted payload carries
`snapshotVersion = version`). Returns the mutated entity and the payload. -/
def Entity.snapshot (e : Entity) : Entity × SnapshotPayload :=
  let e2 : Entity := { e with snapshotVersion := e.version }
  (e2, { id := e2.id, version := e2.version, snapshotVersion := e2.snapshotVersion,
         state := e2.state })

/-- Modelled from the spec: a fresh entity (`new Entity()` with no snapshot
and no events): `version` starts at 0, `snapshotVersion` 0, empty queues. -/
def Entity.fresh (id : List Char) : Entity :=
  { id := id, version := 0, snapshotVersion := 0, state := 0,
    newEvents := [], eventsToEmit := [] }

/-- Modelled from the spec: one domain operation `digest`s exactly one event
and bumps `version` by 1 (spec §3 lifecycle); the event record carries the
new version. The abstract method name and timestamp are fixed since the
Repository never inspects them. -/
def Entity.digest1 (e : Entity) : Entity :=
  { e with version := e.version + 1,
           newEvents := e.newEvents ++ [⟨"m", 0, e.version + 1⟩] }

/-- `k` successive domain operations between two commits. -/
def Entity.digestK (e : Entity) : Nat → Entity
  | 0 => e
  | k + 1 => (e.digest1).digestK k

/-! ### The store interface

DynamoDB with a composite key: an item is `{PK, SK, data}`. `Put` upserts by
full key; `Query` with `begins_with(SK, prefix)` and `ScanIndexForward: false`
returns the matching items in descending sort-key order, up to `Limit`.
-/

/-- The `data` attribute of a stored item: an event or a snapshot payload. -/
inductive ItemData : Type
  | ev (e : Event)
  | snap (s : SnapshotPayload)
deriving DecidableEq, Repr

/-- Typed projections of the `data` attribute. -/
def ItemData.asEv : ItemData → Option Event
  | .ev e => some e
  | .snap _ => none

def ItemData.asSnap : ItemData → Option SnapshotPayload
  | .ev _ => none
  | .snap s => some s

def ItemData.isSnap : ItemData → Bool
  | .ev _ => false
  | .snap _ => true

/-- A stored item `{PK, SK, data}`. -/
structure WriteItem where
  PK : List Char
  SK : List Char
  data : ItemData
deriving DecidableEq, Repr

/-- Two items occupy the same slot when their full primary key coincides. -/
def sameKey (a b : WriteItem) : Bool := a.PK == b.PK && a.SK == b.SK

/-- DynamoDB `Put`: upsert, replacing any existing item with the same key. -/
def putItem (store : List WriteItem) (it : WriteItem) : List WriteItem :=
  store.filter (fun x => !(sameKey x it)) ++ [it]

/-- A transactional multi-item write: all puts land. -/
def putItems (store : List WriteItem) (items : List WriteItem) : List WriteItem :=
  items.foldl putItem store

/-- Boolean prefix test on character lists (`begins_with`). -/
def listPre : List Char → List Char → Bool
  | [], _ => true
  | _ :: _, [] => false
  | a :: p, b :: l => a == b && listPre p l

/-- Insertion step of a descending sort. -/
def insertDescBy (f : WriteItem → WriteItem → Bool) (a : WriteItem) :
    List WriteItem → List WriteItem
  | [] => [a]
  | b :: l => if f a b then a :: b :: l else b :: insertDescBy f a l

/-- Descending insertion sort: `f a b = true` means `a` may come before `b`. -/
def sortDescBy (f : WriteItem → WriteItem → Bool) : List WriteItem → List WriteItem
  | [] => []
  | a :: l => insertDescBy f a (sortDescBy f l)

/-- The store's comparator: `a` at least as large as `b` in sort-key order. -/
def skGe (a b : WriteItem) : Bool := charListLe b.SK a.SK

/-- DynamoDB `Query` with `#pk = :pk AND begins_with(#sk, :sk)`,
`ScanIndexForward: false` and `Limit`: the matching items in descending
sort-key order, truncated to `limit`. -/
def queryDesc (store : List WriteItem) (pk skPre : List Char) (limit : Nat) :
    List WriteItem :=
  (sortDescBy skGe (store.filter (fun it => it.PK == pk && listPre skPre it.SK))).take limit

/-! ### The Repository -/

/-- Repository configuration: `entityName = entityType.name.toLowerCase()` and
`snapshotFrequency` (default 10). The table name, region and key attribute
names select the DynamoDB table and do not affect item contents. -/
structure Repo where
  entityName : List Char
  snapshotFrequency : Nat
deriving DecidableEq, Repr

/-- `"{entityName}#{id}"`. -/
def Repo.pk (r : Repo) (id : List Char) : List Char := r.entityName ++ '#' :: id

/-- `this.eventPrefix = "{entityName}events#"`. -/
def Repo.eventPre (r : Repo) : List Char := r.entityName ++ kindTag .events

/-- `this.snapshotPrefix = "{entityName}snapshots#"`. -/
def Repo.snapshotPre (r : Repo) : List Char := r.entityName ++ kindTag .snapshots

/-- `"{this.eventPrefix}{getPaddedVersion(event.version)}"`. -/
def Repo.eventSk (r : Repo) (v : Nat) : List Char := sortKey r.entityName .events v

/-- `"{this.snapshotPrefix}{getPaddedVersion(entity.snapshotVersion)}"`. -/
def Repo.snapSk (r : Repo) (v : Nat) : List Char := sortKey r.entityName .snapshots v

/-- One staged event write item (commit's `entity.newEvents.map(...)`). -/
def Repo.evItem (r : Repo) (id : List Char) (ev : Event) : WriteItem :=
  { PK := r.pk id, SK := r.eventSk ev.version, data := .ev ev }

/-- The snapshot write item as `commit` stages it at a version `v` for an
entity whose abstract domain state is `st`. -/
def Repo.snapItem (r : Repo) (id : List Char) (v : Nat) (st : Nat) : WriteItem :=
  { PK := r.pk id, SK := r.snapSk v, data := .snap ⟨id, v, v, st⟩ }

/-- The staging phase of `commit` (src/unnamed/part_001:161-196): one `Put`
per pending event; then, if `options.forceSnapshot` or
`entity.version >= entity.snapshotVersion + this.snapshotFrequency`, the
snapshot is taken (`entity.snapshot()`, which records the current version as
`snapshotVersion`) and one more `Put` is appended whose sort key uses
`entity.snapshotVersion` as read after that call. Returns the (possibly
mutated) entity together with the staged `TransactItems`.

Note the guard `if (!entity.id)` on src/unnamed/part_001:154 constructs an
`Error` but never throws it, so staging proceeds unconditionally. -/
def Repo.stageCommit (r : Repo) (e : Entity) (forceSnapshot : Bool) :
    Entity × List WriteItem :=
  let eventItems := e.newEvents.map (fun ev => r.evItem e.id ev)
  if forceSnapshot = true ∨ e.snapshotVersion + r.snapshotFrequency ≤ e.version then
    let es := e.snapshot
    (es.1, eventItems ++
      [{ PK := r.pk es.1.id, SK := r.snapSk es.1.snapshotVersion, data := .snap es.2 }])
  else
    (e, eventItems)

/-- The observable outcome of one `commit` call. -/
structure CommitOutcome where
  entity : Entity
  store : List WriteItem
  emitted : List String
  success : Bool
deriving DecidableEq, Repr

/-- `commit(entity, {forceSnapshot})` (src/unnamed/part_001:148-209) against a
store that either accepts or rejects the transactional write:
on success the staged items are written atomically, then `emitEvents` drains
`entity.eventsToEmit` in enqueue order through the entity's notification
entry point and clears it, and finally `entity.newEvents` is cleared; on
rejection the `await` throws, so the entity is left exactly as staging left
it and nothing is written or emitted. -/
def Repo.commit (r : Repo) (e : Entity) (forceSnapshot : Bool)
    (store : List WriteItem) (storeAccepts : Bool) : CommitOutcome :=
  let se := r.stageCommit e forceSnapshot
  if storeAccepts then
    { entity := { se.1 with eventsToEmit := [], newEvents := [] },
      store := putItems store se.2,
      emitted := se.1.eventsToEmit,
      success := true }
  else
    { entity := se.1, store := store, emitted := [], success := false }

/-- `get(id)` (src/src/index.ts:92-135): two descending prefix queries (latest
snapshot, limit 1; latest events, limit `snapshotFrequency`), then the event
payloads are filtered to `version > (snapshot?.version || 0)` and handed to
the entity constructor together with the snapshot payload. No reordering is
applied to the events after the descending query (the other iteration,
src/unnamed/part_001:131, sorts with a comparator applied to the event
objects themselves, which never inspects `version`). Returns exactly the
constructor arguments `(snapshot, events)`. -/
def Repo.get (r : Repo) (id : List Char) (store : List WriteItem) :
    Option SnapshotPayload × List Event :=
  let snapItems := queryDesc store (r.pk id) r.snapshotPre 1
  let evItems := queryDesc store (r.pk id) r.eventPre r.snapshotFrequency
  let snap : Option SnapshotPayload := snapItems.head?.bind (fun it => it.data.asSnap)
  let snapVer : Nat := (snap.map (fun s => s.version)).getD 0
  let events := (evItems.filterMap (fun it => it.data.asEv)).filter
    (fun ev => decide (snapVer < ev.version))
  (snap, events)

/-- `getAll(ids)` (src/unnamed/part_001:137-146, identically
src/src/index.ts:137-145): the body only logs the ids and returns
`new this.entityType()` — a single freshly constructed entity; the ids and
the store are never consulted. -/
def Repo.getAll (_r : Repo) (_ids : List (List Char)) (_store : List WriteItem) :
    Entity :=
  Entity.fresh []

/-- `commitAll(entities, options)` (src/unnamed/part_001:211-223, identically
src/src/index.ts:203-217): the body only logs the options and returns; no
validation, no write, no notification delivery. Result: the entities, the
store, and the delivered notifications, all unchanged/empty. -/
def Repo.commitAll (_r : Repo) (entities : List Entity) (_forceSnapshots : Bool)
    (store : List WriteItem) : List Entity × List WriteItem × List String :=
  (entities, store, [])

/-! ### Runs of successful commits (for the snapshot-cadence invariant) -/

/-- `[s, s+1, ..., s+k-1]`. -/
def natRange : Nat → Nat → List Nat
  | _, 0 => []
  | s, k + 1 => s :: natRange (s + 1) k

/-- One round of the entity's life between two commits: `k` domain operations
are digested, then `commit` is called with the given `forceSnapshot` flag and
the store accepts the write. -/
def sysStep (r : Repo) (st : Entity × List WriteItem) (stp : Nat × Bool) :
    Entity × List WriteItem :=
  let e1 := st.1.digestK stp.1
  let out := r.commit e1 stp.2 st.2 true
  (out.entity, out.store)

/-- A whole history: a fresh entity, then the given sequence of successful
commits, starting from an empty store. -/
def runSystem (r : Repo) (id : List Char) (steps : List (Nat × Bool)) :
    Entity × List WriteItem :=
  steps.foldl (sysStep r) (Entity.fresh id, [])

/-- Versions of all persisted events of the repository's entity family. -/
def storeEventVersions (r : Repo) (store : List WriteItem) : List Nat :=
  (store.filter (fun it => listPre r.eventPre it.SK)).filterMap
    (fun it => (it.data.asEv).map (fun ev => ev.version))

/-- The version of the latest persisted snapshot, 0 when none exists. -/
def latestSnapVersion (r : Repo) (store : List WriteItem) : Nat :=
  ((store.filter (fun it => listPre r.snapshotPre it.SK)).filterMap
    (fun it => (it.data.asSnap).map (fun s => s.version))).foldr max 0

/-- The state invariant maintained by every successful commit: the entity's
queues are drained, its version/snapshot bookkeeping is consistent with the
cadence, the persisted events are exactly versions `1..version` and the
persisted snapshots form a strictly increasing version chain topped by
`snapshotVersion`. -/
def Inv (r : Repo) (id : List Char) (p : Entity × List WriteItem) : Prop :=
  p.1.id = id ∧ p.1.newEvents = [] ∧ p.1.eventsToEmit = [] ∧ p.1.state = 0 ∧
  p.1.snapshotVersion ≤ p.1.version ∧
  (p.1.version = p.1.snapshotVersion ∨
    p.1.version < p.1.snapshotVersion + r.snapshotFrequency) ∧
  (∀ it ∈ p.2, it.PK = r.pk id) ∧
  (∀ it ∈ p.2, listPre r.eventPre it.SK = true ∨ listPre r.snapshotPre it.SK = true) ∧
  p.2.filter (fun it => listPre r.eventPre it.SK) =
    (natRange 1 p.1.version).map (fun v => r.evItem id ⟨"m", 0, v⟩) ∧
  ∃ svs : List Nat,
    p.2.filter (fun it => listPre r.snapshotPre it.SK) =
      svs.map (fun v => r.snapItem id v 0) ∧
    List.Pairwise (· < ·) svs ∧
    (∀ v ∈ svs, v ≤ p.1.snapshotVersion) ∧
    ((svs = [] ∧ p.1.snapshotVersion = 0) ∨ svs.getLast? = some p.1.snapshotVersion)

/-! ### Concrete fixtures (mirroring the repository's own test entity) -/

/-- The repository built over `class TestEntity` : `entityName = "testentity"`,
default `snapshotFrequency` 10. -/
def rT : Repo := Repo.mk ['t', 'e', 's', 't', 'e', 'n', 't', 'i', 't', 'y'] 10

/-- A test entity after `init(); addOne()`: version 2, two pending events,
one pending notification. -/
def eT : Entity :=
  Entity.mk ['e', '1'] 2 0 0 [Event.mk "init" 0 1, Event.mk "addOne" 0 2] ["oneAdded"]

/-- The store after a successful non-forced commit of `eT` (no snapshot is due
at version 2 with frequency 10): exactly the two event items. -/
def storeT : List WriteItem := (rT.commit eT false [] true).store

/-- An entity whose very first commit stages a snapshot without `forceSnapshot`:
version 10 with frequency 10. -/
def eDue : Entity := Entity.mk ['e', '1'] 10 0 0 [Event.mk "m" 0 10] []

/-- An entity with a missing (empty) id and one staged event. -/
def eNoId : Entity := Entity.mk [] 1 0 0 [Event.mk "m" 0 1] []

end SourcedDynamo

/-! ## Lemmas and claim theorems -/

namespace SourcedDynamo

theorem valBE_append_single (l : List Nat) (d : Nat) :
    valBE (l ++ [d]) = valBE l * 10 + d := by
  induction l with
  | nil => simp [valBE]
  | cons a t ih =>
      have hlen : (t ++ [d]).length = t.length + 1 := by simp
      show valBE (a :: (t ++ [d])) = (a * 10 ^ t.length + valBE t) * 10 + d
      simp only [valBE, ih, hlen]
      ring

theorem decRep_valBE : ∀ fuel n, n < 10 ^ fuel → valBE (decRep fuel n) = n := by
  intro fuel
  induction fuel with
  | zero =>
      intro n hn
      interval_cases n
      simp [decRep, valBE]
  | succ fuel ih =>
      intro n hn
      by_cases h10 : n < 10
      · simp [decRep, h10, valBE]
      · have hdiv : n / 10 < 10 ^ fuel := by
          rw [Nat.div_lt_iff_lt_mul (by norm_num)]
          calc n < 10 ^ (fuel + 1) := hn
            _ = 10 ^ fuel * 10 := by ring
        simp only [decRep, if_neg h10, valBE_append_single, ih _ hdiv]
        omega

theorem decRep_digits_lt : ∀ fuel n d, d ∈ decRep fuel n → d < 10 := by
  intro fuel
  induction fuel with
  | zero => intro n d hd; simp [decRep] at hd
  | succ fuel ih =>
      intro n d hd
      by_cases h10 : n < 10
      · simp [decRep, h10] at hd
        omega
      · simp only [decRep, if_neg h10, List.mem_append, List.mem_singleton] at hd
        rcases hd with hd | hd
        · exact ih _ _ hd
        · subst hd
          exact Nat.mod_lt _ (by norm_num)

theorem decRep_length_le : ∀ fuel n k, 0 < k → n < 10 ^ k → (decRep fuel n).length ≤ k := by
  intro fuel
  induction fuel with
  | zero => intro n k _ _; simp [decRep]
  | succ fuel ih =>
      intro n k hk hn
      by_cases h10 : n < 10
      · simpa [decRep, h10] using hk
      · have hk2 : 2 ≤ k := by
          by_contra hlt
          have : k = 1 := by omega
          subst this
          simp at hn
          omega
        have hdiv : n / 10 < 10 ^ (k - 1) := by
          rw [Nat.div_lt_iff_lt_mul (by norm_num)]
          calc n < 10 ^ k := hn
            _ = 10 ^ (k - 1) * 10 := by
                  rw [← Nat.pow_succ]
                  congr 1
                  omega
        have := ih (n / 10) (k - 1) (by omega) hdiv
        simp only [decRep, if_neg h10, List.length_append, List.length_cons,
          List.length_nil]
        omega

theorem lt_pow_self_base10 (n : Nat) : n < 10 ^ (n + 1) :=
  lt_of_lt_of_le (Nat.lt_pow_self (by norm_num) n)
    (Nat.pow_le_pow_right (by norm_num) (by omega))

theorem valBE_decDigits (n : Nat) : valBE (decDigits n) = n :=
  decRep_valBE _ _ (lt_pow_self_base10 n)

theorem decDigits_digits_lt (n d : Nat) (hd : d ∈ decDigits n) : d < 10 :=
  decRep_digits_lt _ _ _ hd

theorem decDigits_length_le (n : Nat) (hn : n < 10 ^ 15) : (decDigits n).length ≤ 15 :=
  decRep_length_le _ _ _ (by norm_num) hn

theorem valBE_replicate_zero_append (k : Nat) (l : List Nat) :
    valBE (List.replicate k 0 ++ l) = valBE l := by
  induction k with
  | zero => simp
  | succ k ih => simp [List.replicate_succ, valBE, ih]

theorem valBE_getPaddedVersion (v : Nat) : valBE (getPaddedVersion v) = v := by
  rw [getPaddedVersion, padStart15, valBE_replicate_zero_append, valBE_decDigits]

theorem getPaddedVersion_inj {v1 v2 : Nat} (h : getPaddedVersion v1 = getPaddedVersion v2) :
    v1 = v2 := by
  have := congrArg valBE h
  rwa [valBE_getPaddedVersion, valBE_getPaddedVersion] at this

theorem getPaddedVersion_length (v : Nat) (hv : v < 10 ^ 15) :
    (getPaddedVersion v).length = 15 := by
  have h := decDigits_length_le v hv
  simp [getPaddedVersion, padStart15]
  omega

theorem getPaddedVersion_digits_lt (v d : Nat) (hd : d ∈ getPaddedVersion v) : d < 10 := by
  simp only [getPaddedVersion, padStart15, List.mem_append, List.mem_replicate] at hd
  rcases hd with ⟨_, h0⟩ | h
  · omega
  · exact decDigits_digits_lt _ _ h

theorem valBE_lt_pow_length (l : List Nat) (hl : ∀ d ∈ l, d < 10) :
    valBE l < 10 ^ l.length := by
  induction l with
  | nil => simp [valBE]
  | cons a t ih =>
      have ha : a < 10 := hl a (by simp)
      have ht := ih (fun d hd => hl d (by simp [hd]))
      simp only [valBE, List.length_cons, Nat.pow_succ]
      calc a * 10 ^ t.length + valBE t < a * 10 ^ t.length + 10 ^ t.length := by omega
        _ = (a + 1) * 10 ^ t.length := by ring
        _ ≤ 10 * 10 ^ t.length := by
              exact Nat.mul_le_mul_right _ (by omega)
        _ = 10 ^ t.length * 10 := by ring

/-- Case analysis for `List.Lex` on two conses, for any relation. -/
theorem lex_cons_cases {α : Type} (r : α → α → Prop) (a b : α) (l1 l2 : List α)
    (h : List.Lex r (a :: l1) (b :: l2)) : r a b ∨ (a = b ∧ List.Lex r l1 l2) := by
  cases h with
  | rel h => exact Or.inl h
  | cons h => exact Or.inr ⟨rfl, h⟩

/-- The key arithmetic fact: comparing two equal-width digit blocks. -/
theorem block_lt_iff {P d1 d2 r1 r2 : Nat} (h1 : r1 < P) (h2 : r2 < P) :
    d1 * P + r1 < d2 * P + r2 ↔ d1 < d2 ∨ (d1 = d2 ∧ r1 < r2) := by
  constructor
  · intro h
    rcases Nat.lt_trichotomy d1 d2 with hd | hd | hd
    · exact Or.inl hd
    · subst hd
      exact Or.inr ⟨rfl, by omega⟩
    · exfalso
      have : d2 * P + r2 ≤ d1 * P := by
        have : (d2 + 1) * P ≤ d1 * P := Nat.mul_le_mul_right _ (by omega)
        nlinarith
      omega
  · intro h
    rcases h with hd | ⟨hd, hr⟩
    · have : (d1 + 1) * P ≤ d2 * P := Nat.mul_le_mul_right _ (by omega)
      nlinarith
    · subst hd
      omega

/-- For equal-length digit strings, lexicographic order is numeric order. -/
theorem lex_digits_iff_valBE : ∀ (l1 l2 : List Nat), l1.length = l2.length →
    (∀ d ∈ l1, d < 10) → (∀ d ∈ l2, d < 10) →
    (List.Lex (· < ·) l1 l2 ↔ valBE l1 < valBE l2) := by
  intro l1
  induction l1 with
  | nil =>
      intro l2 hlen _ _
      cases l2 with
      | nil => simp [valBE]
      | cons b t => simp at hlen
  | cons a t1 ih =>
      intro l2 hlen h1 h2
      cases l2 with
      | nil => simp at hlen
      | cons b t2 =>
          have hlen' : t1.length = t2.length := by simpa using hlen
          have ht1 : ∀ d ∈ t1, d < 10 := fun d hd => h1 d (by simp [hd])
          have ht2 : ∀ d ∈ t2, d < 10 := fun d hd => h2 d (by simp [hd])
          have hv1 : valBE t1 < 10 ^ t1.length := valBE_lt_pow_length t1 ht1
          have hv2 : valBE t2 < 10 ^ t2.length := valBE_lt_pow_length t2 ht2
          rw [hlen'] at hv1
          constructor
          · intro h
            rcases lex_cons_cases _ _ _ _ _ h with hab | ⟨hab, ht⟩
            · simp only [valBE, hlen']
              exact (block_lt_iff hv1 hv2).mpr (Or.inl hab)
            · subst hab
              simp only [valBE, hlen']
              exact (block_lt_iff hv1 hv2).mpr
                (Or.inr ⟨rfl, (ih t2 hlen' ht1 ht2).mp ht⟩)
          · intro h
            simp only [valBE, hlen'] at h
            rcases (block_lt_iff hv1 hv2).mp h with hab | ⟨hab, ht⟩
            · exact List.Lex.rel hab
            · subst hab
              exact List.Lex.cons ((ih t2 hlen' ht1 ht2).mpr ht)

/-- `Nat.digitChar` is strictly monotone on digits. -/
theorem digitChar_lt_iff : ∀ a, a < 10 → ∀ b, b < 10 →
    ((Nat.digitChar a < Nat.digitChar b) ↔ a < b) := by decide

/-- `Nat.digitChar` is injective on digits. -/
theorem digitChar_inj : ∀ a, a < 10 → ∀ b, b < 10 →
    (Nat.digitChar a = Nat.digitChar b ↔ a = b) := by decide

/-- Lexicographic comparison of digit characters mirrors comparison of digits. -/
theorem lex_map_digitChar : ∀ (l1 l2 : List Nat),
    (∀ d ∈ l1, d < 10) → (∀ d ∈ l2, d < 10) →
    (List.Lex (· < ·) (l1.map Nat.digitChar) (l2.map Nat.digitChar) ↔
      List.Lex (· < ·) l1 l2) := by
  intro l1
  induction l1 with
  | nil =>
      intro l2 _ _
      cases l2 with
      | nil => simp
      | cons b t => simp [List.Lex.nil]
  | cons a t1 ih =>
      intro l2 h1 h2
      cases l2 with
      | nil =>
          constructor <;> intro h <;> exact absurd h (List.Lex.not_nil_right _ _)
      | cons b t2 =>
          have ha : a < 10 := h1 a (by simp)
          have hb : b < 10 := h2 b (by simp)
          have ht1 : ∀ d ∈ t1, d < 10 := fun d hd => h1 d (by simp [hd])
          have ht2 : ∀ d ∈ t2, d < 10 := fun d hd => h2 d (by simp [hd])
          simp only [List.map_cons]
          constructor
          · intro h
            rcases lex_cons_cases _ _ _ _ _ h with hab | ⟨hab, ht⟩
            · exact List.Lex.rel ((digitChar_lt_iff a ha b hb).mp hab)
            · have : a = b := (digitChar_inj a ha b hb).mp hab
              subst this
              exact List.Lex.cons ((ih t2 ht1 ht2).mp ht)
          · intro h
            rcases lex_cons_cases _ _ _ _ _ h with hab | ⟨hab, ht⟩
            · exact List.Lex.rel ((digitChar_lt_iff a ha b hb).mpr hab)
            · subst hab
              exact List.Lex.cons ((ih t2 ht1 ht2).mpr ht)

/-- Prepending a common prefix does not change lexicographic comparison. -/
theorem lex_append_left_iff : ∀ (p a b : List Char),
    (List.Lex (· < ·) (p ++ a) (p ++ b) ↔ List.Lex (· < ·) a b) := by
  intro p
  induction p with
  | nil => intro a b; simp
  | cons x p ih =>
      intro a b
      simp only [List.cons_append]
      constructor
      · intro h
        rcases lex_cons_cases _ _ _ _ _ h with hxx | ⟨_, ht⟩
        · exact absurd hxx (lt_irrefl x)
        · exact (ih a b).mp ht
      · intro h
        exact List.Lex.cons ((ih a b).mpr h)

theorem charListLe_iff_lex_or_eq : ∀ (a b : List Char),
    (charListLe a b = true ↔ (a = b ∨ List.Lex (· < ·) a b)) := by
  intro a
  induction a with
  | nil =>
      intro b
      cases b with
      | nil => simp [charListLe]
      | cons y ys => simp [charListLe, List.Lex.nil]
  | cons x xs ih =>
      intro b
      cases b with
      | nil =>
          simp only [charListLe]
          constructor
          · intro h; exact absurd h (by simp)
          · intro h
            rcases h with h | h
            · exact absurd h (by simp)
            · exact absurd h (List.Lex.not_nil_right _ _)
      | cons y ys =>
          by_cases hxy : x < y
          · simp only [charListLe, if_pos hxy]
            constructor
            · intro _
              exact Or.inr (List.Lex.rel hxy)
            · intro _; trivial
          · by_cases hyx : y < x
            · simp only [charListLe, if_neg hxy, if_pos hyx]
              constructor
              · intro h; exact absurd h (by simp)
              · intro h
                exfalso
                rcases h with h | h
                · rw [List.cons.injEq] at h
                  exact absurd h.1 (ne_of_gt hyx)
                · rcases lex_cons_cases _ _ _ _ _ h with h' | ⟨h', _⟩
                  · exact absurd h' hxy
                  · subst h'
                    exact absurd hyx (lt_irrefl x)
            · have hxy' : x = y := le_antisymm (le_of_not_lt hyx) (le_of_not_lt hxy)
              subst hxy'
              simp only [charListLe, if_neg hxy, List.cons.injEq, true_and]
              rw [ih ys]
              constructor
              · intro h
                rcases h with h | h
                · exact Or.inl h
                · exact Or.inr (List.Lex.cons h)
              · intro h
                rcases h with h | h
                · exact Or.inl h
                · rcases lex_cons_cases _ _ _ _ _ h with h' | ⟨_, h'⟩
                  · exact absurd h' (lt_irrefl x)
                  · exact Or.inr h'

theorem charListLe_append_left (p a b : List Char) :
    charListLe (p ++ a) (p ++ b) = charListLe a b := by
  induction p with
  | nil => simp
  | cons x xs ih => simp [charListLe, lt_irrefl, ih]

theorem map_digitChar_inj {l1 l2 : List Nat} (h1 : ∀ d ∈ l1, d < 10) (h2 : ∀ d ∈ l2, d < 10)
    (h : l1.map Nat.digitChar = l2.map Nat.digitChar) : l1 = l2 := by
  induction l1 generalizing l2 with
  | nil => cases l2 <;> simp_all
  | cons a t ih =>
      cases l2 with
      | nil => simp at h
      | cons b t2 =>
          simp only [List.map_cons, List.cons.injEq] at h
          have ha : a < 10 := h1 a (by simp)
          have hb : b < 10 := h2 b (by simp)
          have : a = b := (digitChar_inj a ha b hb).mp h.1
          subst this
          rw [ih (fun d hd => h1 d (by simp [hd])) (fun d hd => h2 d (by simp [hd])) h.2]

theorem sortKey_inj {name : List Char} {k1 k2 : RecordKind} {v1 v2 : Nat}
    (h : sortKey name k1 v1 = sortKey name k2 v2) : k1 = k2 ∧ v1 = v2 := by
  simp only [sortKey, List.append_assoc] at h
  have h' := List.append_cancel_left h
  have hk : k1 = k2 := by
    cases k1 <;> cases k2 <;> first
      | rfl
      | (exfalso; simp [kindTag] at h')
  subst hk
  refine ⟨rfl, ?_⟩
  have h'' := List.append_cancel_left h'
  exact getPaddedVersion_inj (map_digitChar_inj
    (getPaddedVersion_digits_lt v1) (getPaddedVersion_digits_lt v2) h'')

theorem sortKey_lex_iff {name : List Char} {k : RecordKind} {v1 v2 : Nat}
    (h1 : v1 < 10 ^ 15) (h2 : v2 < 10 ^ 15) :
    (List.Lex (· < ·) (sortKey name k v1) (sortKey name k v2) ↔ v1 < v2) := by
  simp only [sortKey, List.append_assoc]
  rw [← List.append_assoc name, ← List.append_assoc name,
    lex_append_left_iff,
    lex_map_digitChar _ _ (getPaddedVersion_digits_lt v1) (getPaddedVersion_digits_lt v2),
    lex_digits_iff_valBE _ _
      (by rw [getPaddedVersion_length v1 h1, getPaddedVersion_length v2 h2])
      (getPaddedVersion_digits_lt v1) (getPaddedVersion_digits_lt v2),
    valBE_getPaddedVersion, valBE_getPaddedVersion]

/-- Boolean comparator version of key ordering, as the store sorts keys. -/
theorem sortKey_le_iff {name : List Char} {k : RecordKind} {v1 v2 : Nat}
    (h1 : v1 < 10 ^ 15) (h2 : v2 < 10 ^ 15) :
    (charListLe (sortKey name k v1) (sortKey name k v2) = true ↔ v1 ≤ v2) := by
  rw [charListLe_iff_lex_or_eq]
  constructor
  · intro h
    rcases h with h | h
    · exact le_of_eq (sortKey_inj h).2
    · exact le_of_lt ((sortKey_lex_iff h1 h2).mp h)
  · intro h
    rcases lt_or_eq_of_le h with h | h
    · exact Or.inr ((sortKey_lex_iff h1 h2).mpr h)
    · subst h; exact Or.inl rfl

/-- Event write items carry event data, so none of them is a snapshot item. -/
theorem filter_isSnap_evItems (r : Repo) (id : List Char) (evs : List Event) :
    (evs.map (fun ev => r.evItem id ev)).filter (fun it => it.data.isSnap) = [] := by
  induction evs with
  | nil => rfl
  | cons a t ih =>
      have ha : (r.evItem id a).data.isSnap = false := by
        simp [Repo.evItem, ItemData.isSnap]
      simp [ha, ih]

/-- C2: for a fixed entity (name), the sort-key encoding is injective over
`(kind, version)`, and for versions below `10^15` the lexicographic order of
two same-kind sort keys equals the numeric order of the versions. -/
theorem sortKey_injective_and_ordered (name : List Char) (k1 k2 : RecordKind) (v1 v2 : Nat)
    (h1 : v1 < 10 ^ 15) (h2 : v2 < 10 ^ 15) :
    (sortKey name k1 v1 = sortKey name k2 v2 → k1 = k2 ∧ v1 = v2) ∧
    (List.Lex (· < ·) (sortKey name k1 v1) (sortKey name k1 v2) ↔ v1 < v2) :=
  ⟨fun h => sortKey_inj h, sortKey_lex_iff h1 h2⟩

/-- Witness for `sortKey_injective_and_ordered` at versions 3 and 7. -/
theorem sortKey_injective_and_ordered_witness :
    (3 : Nat) < 10 ^ 15 ∧ (7 : Nat) < 10 ^ 15 ∧
    ((sortKey ['t'] RecordKind.events 3 = sortKey ['t'] RecordKind.snapshots 7 →
        RecordKind.events = RecordKind.snapshots ∧ (3 : Nat) = 7) ∧
      (List.Lex (· < ·) (sortKey ['t'] RecordKind.events 3)
          (sortKey ['t'] RecordKind.events 7) ↔ (3 : Nat) < 7)) :=
  ⟨by norm_num, by norm_num,
    sortKey_injective_and_ordered ['t'] RecordKind.events RecordKind.snapshots 3 7
      (by norm_num) (by norm_num)⟩

/-- C1: a `commit` of an entity with an empty id does NOT fail before I/O:
the guard on src/unnamed/part_001:154 (and src/src/index.ts:153) constructs
an `Error` without throwing it, so the transactional write is still issued
and, when the store accepts it, the event item is persisted and the call
reports success. This exhibits the departure from the claimed
ValidationError-before-any-I/O behaviour. -/
theorem commit_empty_id_attempts_write :
    (rT.commit eNoId false [] true).success = true ∧
    (rT.commit eNoId false [] true).store = [rT.evItem [] (Event.mk "m" 0 1)] := by
  decide

/-- C3: `commit` stages (and, the store accepting, persists) a snapshot item
if and only if `forceSnapshot` is set or
`version ≥ snapshotVersion + snapshotFrequency`, and the staged snapshot item
carries payload `snapshotVersion = version` and the sort key derived from the
current `version` (because `entity.snapshot()` records the current version
as `snapshotVersion` before the key is built). -/
theorem commit_snapshot_policy (r : Repo) (e : Entity) (force : Bool)
    (store : List WriteItem) :
    (r.commit e force store true).store = putItems store (r.stageCommit e force).2 ∧
    (if force = true ∨ e.snapshotVersion + r.snapshotFrequency ≤ e.version then
        (r.stageCommit e force).2.filter (fun it => it.data.isSnap) =
          [r.snapItem e.id e.version e.state]
      else
        (r.stageCommit e force).2.filter (fun it => it.data.isSnap) = []) := by
  constructor
  · simp [Repo.commit]
  · by_cases hc : force = true ∨ e.snapshotVersion + r.snapshotFrequency ≤ e.version
    · rw [if_pos hc]
      simp only [Repo.stageCommit, if_pos hc, Entity.snapshot, List.filter_append,
        filter_isSnap_evItems, List.nil_append]
      simp [Repo.snapItem, ItemData.isSnap]
    · rw [if_neg hc]
      simp [Repo.stageCommit, hc, filter_isSnap_evItems]

/-- C4: on a store holding two committed events (versions 1 and 2) and no
snapshot, `get` hands the events to the entity constructor in DESCENDING
version order `[2, 1]`: the descending query result is filtered but never
reversed (src/src/index.ts:128-134), contradicting the claimed ascending
order which the entity's replay contract and the repository's own tests
require. -/
theorem get_passes_events_descending :
    ((rT.get ['e', '1'] storeT).2.map (fun ev => ev.version)) = [2, 1] := by
  decide

/-- C5 counterexample: an entity at version 10 (frequency 10, snapshot due)
whose commit the store rejects does NOT regenerate identical write items on
re-invocation: the failed attempt already advanced `snapshotVersion` through
`entity.snapshot()`, so the retry stages no snapshot item. -/
theorem commit_retry_items_differ :
    (rT.stageCommit (rT.commit eDue false [] false).entity false).2 ≠
      (rT.stageCommit eDue false).2 := by
  decide

/-- C5 (amended): when the store rejects the write, `commit` fails, the store
is unchanged, nothing is emitted and `newEvents`/`eventsToEmit` are exactly
as before the call; the re-invocation stages write items identical to the
first attempt provided the failed attempt staged no snapshot, or
`forceSnapshot` is used both times. -/
theorem commit_failure_preserves_and_retry (r : Repo) (e : Entity) (force : Bool)
    (store : List WriteItem) :
    (r.commit e force store false).success = false ∧
    (r.commit e force store false).store = store ∧
    (r.commit e force store false).emitted = [] ∧
    (r.commit e force store false).entity.newEvents = e.newEvents ∧
    (r.commit e force store false).entity.eventsToEmit = e.eventsToEmit ∧
    (force = true →
      (r.stageCommit (r.commit e force store false).entity force).2 =
        (r.stageCommit e force).2) ∧
    (¬ (force = true ∨ e.snapshotVersion + r.snapshotFrequency ≤ e.version) →
      (r.stageCommit (r.commit e force store false).entity force).2 =
        (r.stageCommit e force).2) := by
  by_cases hc : force = true ∨ e.snapshotVersion + r.snapshotFrequency ≤ e.version
  · refine ⟨by simp [Repo.commit], by simp [Repo.commit], by simp [Repo.commit],
      ?_, ?_, ?_, ?_⟩
    · simp [Repo.commit, Repo.stageCommit, hc, Entity.snapshot]
    · simp [Repo.commit, Repo.stageCommit, hc, Entity.snapshot]
    · intro hf
      subst hf
      simp [Repo.commit, Repo.stageCommit, hc, Entity.snapshot, Repo.evItem]
    · intro hnc
      exact absurd hc hnc
  · refine ⟨by simp [Repo.commit], by simp [Repo.commit], by simp [Repo.commit],
      ?_, ?_, ?_, ?_⟩
    · simp [Repo.commit, Repo.stageCommit, hc]
    · simp [Repo.commit, Repo.stageCommit, hc]
    · intro hf
      subst hf
      simp at hc
    · intro _
      simp [Repo.commit, Repo.stageCommit, hc]

/-- Witness for `commit_failure_preserves_and_retry`: a rejected forced commit
leaves the queues intact and the retry stages identical items. -/
theorem commit_failure_preserves_and_retry_witness :
    (rT.commit eDue true [] false).entity.newEvents = eDue.newEvents ∧
    (rT.stageCommit (rT.commit eDue true [] false).entity true).2 =
      (rT.stageCommit eDue true).2 :=
  ⟨(commit_failure_preserves_and_retry rT eDue true []).2.2.2.1,
    (commit_failure_preserves_and_retry rT eDue true []).2.2.2.2.2.1 rfl⟩

/-- C6: after the store accepts the write, `commit` delivers exactly the
pending notifications of `eventsToEmit`, in enqueue order, and returns with
both `newEvents` and `eventsToEmit` empty
(src/unnamed/part_001:202-207, 225-234). -/
theorem commit_success_emits_in_order_and_clears (r : Repo) (e : Entity) (force : Bool)
    (store : List WriteItem) :
    (r.commit e force store true).emitted = e.eventsToEmit ∧
    (r.commit e force store true).entity.newEvents = [] ∧
    (r.commit e force store true).entity.eventsToEmit = [] := by
  by_cases hc : force = true ∨ e.snapshotVersion + r.snapshotFrequency ≤ e.version <;>
    simp [Repo.commit, Repo.stageCommit, hc, Entity.snapshot]

/-- C8: `getAll` is a stub: it returns one freshly constructed default entity,
never consulting its ids argument or the store — even on a store where
`get "e1"` finds persisted events — so it does not resolve `get` per id and
does not return one entity per input id. -/
theorem getAll_returns_single_default :
    (∀ (r : Repo) (ids : List (List Char)) (store : List WriteItem),
        r.getAll ids store = Entity.fresh []) ∧
    (rT.get ['e', '1'] storeT).2 ≠ [] :=
  ⟨fun _ _ _ => rfl, by decide⟩

/-- C9: `commitAll` is a stub: it validates nothing, writes nothing to the
store, delivers no notifications and leaves every entity untouched — even
when an entity in the batch has staged events. -/
theorem commitAll_is_stub :
    (∀ (r : Repo) (entities : List Entity) (force : Bool) (store : List WriteItem),
        r.commitAll entities force store = (entities, store, [])) ∧
    (rT.commitAll [eT] false []).2.1 = [] ∧ eT.newEvents ≠ [] :=
  ⟨fun _ _ _ _ => rfl, rfl, by decide⟩

/-- C10: `commit` never changes `id` or `version`; when no snapshot is staged
(`forceSnapshot` false and `version < snapshotVersion + snapshotFrequency`),
`snapshotVersion` is unchanged as well and the only fields `commit` mutates
are `newEvents` and `eventsToEmit` (cleared on success, untouched on
failure). -/
theorem commit_frame (r : Repo) (e : Entity) (force : Bool) (store : List WriteItem)
    (accept : Bool) :
    (r.commit e force store accept).entity.id = e.id ∧
    (r.commit e force store accept).entity.version = e.version ∧
    (¬ (force = true ∨ e.snapshotVersion + r.snapshotFrequency ≤ e.version) →
      ((r.commit e force store accept).entity.snapshotVersion = e.snapshotVersion ∧
        (accept = true →
          (r.commit e force store accept).entity =
            { e with newEvents := [], eventsToEmit := [] }) ∧
        (accept = false → (r.commit e force store accept).entity = e))) := by
  by_cases hc : force = true ∨ e.snapshotVersion + r.snapshotFrequency ≤ e.version
  · have hst : (r.stageCommit e force).1 = { e with snapshotVersion := e.version } := by
      simp [Repo.stageCommit, hc, Entity.snapshot]
    cases accept <;>
      exact ⟨by simp [Repo.commit, hst], by simp [Repo.commit, hst],
        fun hnc => absurd hc hnc⟩
  · have hst : (r.stageCommit e force).1 = e := by
      simp [Repo.stageCommit, hc]
    cases accept
    · refine ⟨by simp [Repo.commit, hst], by simp [Repo.commit, hst],
        fun _ => ⟨by simp [Repo.commit, hst], ?_, ?_⟩⟩
      · intro ha
        exact absurd ha (by simp)
      · intro _
        simp [Repo.commit, hst]
    · refine ⟨by simp [Repo.commit, hst], by simp [Repo.commit, hst],
        fun _ => ⟨by simp [Repo.commit, hst], ?_, ?_⟩⟩
      · intro _
        simp [Repo.commit, hst]
      · intro ha
        exact absurd ha (by simp)

/-- Witness for `commit_frame`: a successful non-forced commit below the
snapshot threshold only clears the two queues. -/
theorem commit_frame_witness :
    (rT.commit eT false [] true).entity.id = eT.id ∧
    (rT.commit eT false [] true).entity = { eT with newEvents := [], eventsToEmit := [] } :=
  ⟨(commit_frame rT eT false [] true).1,
    ((commit_frame rT eT false [] true).2.2 (by decide)).2.1 rfl⟩

/-! ### Helper lemmas for the snapshot-cadence invariant (C7) -/

theorem natRange_append (m : Nat) : ∀ (s n : Nat),
    natRange s (m + n) = natRange s m ++ natRange (s + m) n := by
  induction m with
  | zero => intro s n; simp [natRange]
  | succ m ih =>
      intro s n
      have h1 : m + 1 + n = (m + n) + 1 := by omega
      rw [h1]
      show s :: natRange (s + 1) (m + n) = (s :: natRange (s + 1) m) ++ natRange (s + (m + 1)) n
      rw [List.cons_append, ih (s + 1) n]
      have h2 : s + 1 + m = s + (m + 1) := by omega
      rw [h2]

theorem mem_natRange : ∀ (k s x : Nat), x ∈ natRange s k ↔ s ≤ x ∧ x < s + k := by
  intro k
  induction k with
  | zero => intro s x; simp [natRange]
  | succ k ih =>
      intro s x
      simp only [natRange, List.mem_cons, ih (s + 1) x]
      omega

theorem natRange_length : ∀ (k s : Nat), (natRange s k).length = k := by
  intro k
  induction k with
  | zero => intro s; rfl
  | succ k ih => intro s; simp [natRange, ih]

theorem natRange_pairwise_lt : ∀ (k s : Nat), List.Pairwise (· < ·) (natRange s k) := by
  intro k
  induction k with
  | zero => intro s; simp [natRange]
  | succ k ih =>
      intro s
      refine List.pairwise_cons.mpr ⟨?_, ih (s + 1)⟩
      intro y hy
      exact lt_of_lt_of_le (by omega) ((mem_natRange _ _ _).mp hy).1

theorem digestK_spec (k : Nat) : ∀ (e : Entity),
    (e.digestK k).id = e.id ∧ (e.digestK k).version = e.version + k ∧
    (e.digestK k).snapshotVersion = e.snapshotVersion ∧
    (e.digestK k).state = e.state ∧
    (e.digestK k).eventsToEmit = e.eventsToEmit ∧
    (e.digestK k).newEvents =
      e.newEvents ++ (natRange (e.version + 1) k).map (fun v => Event.mk "m" 0 v) := by
  induction k with
  | zero => intro e; simp [Entity.digestK, natRange]
  | succ k ih =>
      intro e
      have h := ih e.digest1
      have hd1 : e.digest1.id = e.id ∧ e.digest1.version = e.version + 1 ∧
          e.digest1.snapshotVersion = e.snapshotVersion ∧ e.digest1.state = e.state ∧
          e.digest1.eventsToEmit = e.eventsToEmit ∧
          e.digest1.newEvents = e.newEvents ++ [Event.mk "m" 0 (e.version + 1)] := by
        simp [Entity.digest1]
      rw [show e.digestK (k + 1) = (e.digest1).digestK k from rfl]
      refine ⟨h.1.trans hd1.1, ?_, h.2.2.1.trans hd1.2.2.1, h.2.2.2.1.trans hd1.2.2.2.1,
        h.2.2.2.2.1.trans hd1.2.2.2.2.1, ?_⟩
      · rw [h.2.1, hd1.2.1]
        omega
      · rw [h.2.2.2.2.2, hd1.2.2.2.2.2, hd1.2.1, List.append_assoc]
        congr 1

theorem listPre_append_cancel (p a b : List Char) :
    listPre (p ++ a) (p ++ b) = listPre a b := by
  induction p with
  | nil => simp
  | cons x xs ih => simp [listPre, ih]

theorem listPre_self_append : ∀ (p rest : List Char), listPre p (p ++ rest) = true := by
  intro p
  induction p with
  | nil => intro rest; rfl
  | cons x xs ih => intro rest; simp [listPre, ih]

theorem eventSk_group (r : Repo) (v : Nat) :
    r.eventSk v = r.eventPre ++ (getPaddedVersion v).map Nat.digitChar := by
  simp [Repo.eventSk, sortKey, Repo.eventPre, List.append_assoc]

theorem snapSk_group (r : Repo) (v : Nat) :
    r.snapSk v = r.snapshotPre ++ (getPaddedVersion v).map Nat.digitChar := by
  simp [Repo.snapSk, sortKey, Repo.snapshotPre, List.append_assoc]

theorem listPre_eventPre_eventSk (r : Repo) (v : Nat) :
    listPre r.eventPre (r.eventSk v) = true := by
  rw [eventSk_group]
  exact listPre_self_append _ _

theorem listPre_snapshotPre_snapSk (r : Repo) (v : Nat) :
    listPre r.snapshotPre (r.snapSk v) = true := by
  rw [snapSk_group]
  exact listPre_self_append _ _

theorem listPre_eventPre_snapSk (r : Repo) (v : Nat) :
    listPre r.eventPre (r.snapSk v) = false := by
  rw [snapSk_group, Repo.eventPre, Repo.snapshotPre, List.append_assoc,
    listPre_append_cancel]
  rfl

theorem listPre_snapshotPre_eventSk (r : Repo) (v : Nat) :
    listPre r.snapshotPre (r.eventSk v) = false := by
  rw [eventSk_group, Repo.snapshotPre, Repo.eventPre, List.append_assoc,
    listPre_append_cancel]
  rfl

theorem eventSk_ne_snapSk (r : Repo) (a b : Nat) : r.eventSk a ≠ r.snapSk b := by
  intro h
  cases (sortKey_inj h).1

theorem eventSk_inj (r : Repo) {a b : Nat} (h : r.eventSk a = r.eventSk b) : a = b :=
  (sortKey_inj h).2

theorem snapSk_inj (r : Repo) {a b : Nat} (h : r.snapSk a = r.snapSk b) : a = b :=
  (sortKey_inj h).2

theorem sameKey_of_sk_ne {a b : WriteItem} (h : a.SK ≠ b.SK) : sameKey a b = false := by
  simp [sameKey, h]

theorem sameKey_snapItem_snapItem (r : Repo) (id : List Char) (u nv st1 st2 : Nat) :
    sameKey (r.snapItem id u st1) (r.snapItem id nv st2) = decide (u = nv) := by
  by_cases h : u = nv
  · subst h
    simp [sameKey, Repo.snapItem]
  · have hsk : r.snapSk u ≠ r.snapSk nv := fun hh => h (snapSk_inj r hh)
    simp [sameKey, Repo.snapItem, hsk, h]

theorem filter_putItem (P : WriteItem → Bool) (store : List WriteItem) (it : WriteItem) :
    (putItem store it).filter P =
      (store.filter P).filter (fun x => !(sameKey x it)) ++
        (if P it then [it] else []) := by
  rw [putItem, List.filter_append, List.filter_comm]
  congr 1
  cases h : P it <;> simp [h]

theorem putItem_fresh (store : List WriteItem) (it : WriteItem)
    (h : ∀ x ∈ store, sameKey x it = false) : putItem store it = store ++ [it] := by
  rw [putItem, List.filter_eq_self.mpr]
  intro x hx
  simp [h x hx]

theorem putItems_fresh : ∀ (its store : List WriteItem),
    (∀ i ∈ its, ∀ x ∈ store, sameKey x i = false) →
    List.Pairwise (fun a b => sameKey a b = false) its →
    putItems store its = store ++ its := by
  intro its
  induction its with
  | nil => intro store _ _; simp [putItems]
  | cons a t ih =>
      intro store h hp
      obtain ⟨hpa, hpt⟩ := List.pairwise_cons.mp hp
      have ha : putItem store a = store ++ [a] :=
        putItem_fresh _ _ (fun x hx => h a (by simp) x hx)
      show putItems (putItem store a) t = store ++ a :: t
      rw [ha, ih (store ++ [a]) ?_ hpt]
      · simp
      · intro i hi x hx
        rcases List.mem_append.mp hx with hx | hx
        · exact h i (by simp [hi]) x hx
        · rw [List.mem_singleton.mp hx]
          exact hpa i hi

theorem insertDescBy_bottom (f : WriteItem → WriteItem → Bool) (a : WriteItem) :
    ∀ (m : List WriteItem), (∀ b ∈ m, f a b = false) → insertDescBy f a m = m ++ [a] := by
  intro m
  induction m with
  | nil => intro _; rfl
  | cons b l ih =>
      intro h
      have hb : f a b = false := h b (by simp)
      simp only [insertDescBy, hb]
      rw [ih (fun c hc => h c (by simp [hc]))]
      simp

theorem sortDescBy_of_ascending (f : WriteItem → WriteItem → Bool) :
    ∀ (l : List WriteItem), List.Pairwise (fun x y => f x y = false) l →
    sortDescBy f l = l.reverse := by
  intro l
  induction l with
  | nil => intro _; rfl
  | cons x t ih =>
      intro h
      obtain ⟨hx, ht⟩ := List.pairwise_cons.mp h
      show insertDescBy f x (sortDescBy f t) = (x :: t).reverse
      rw [ih ht, insertDescBy_bottom f x t.reverse
        (fun b hb => hx b (List.mem_reverse.mp hb)), List.reverse_cons]

theorem store_item_shape {r : Repo} {id : List Char} {store : List WriteItem} {v : Nat}
    {svs : List Nat}
    (hshape : ∀ it ∈ store,
      listPre r.eventPre it.SK = true ∨ listPre r.snapshotPre it.SK = true)
    (hev : store.filter (fun it => listPre r.eventPre it.SK) =
      (natRange 1 v).map (fun w => r.evItem id ⟨"m", 0, w⟩))
    (hsnap : store.filter (fun it => listPre r.snapshotPre it.SK) =
      svs.map (fun u => r.snapItem id u 0))
    {x : WriteItem} (hx : x ∈ store) :
    (∃ u ∈ natRange 1 v, x = r.evItem id ⟨"m", 0, u⟩) ∨
      ∃ u ∈ svs, x = r.snapItem id u 0 := by
  rcases hshape x hx with h | h
  · left
    have : x ∈ store.filter (fun it => listPre r.eventPre it.SK) :=
      List.mem_filter.mpr ⟨hx, h⟩
    rw [hev] at this
    obtain ⟨u, hu, hxu⟩ := List.mem_map.mp this
    exact ⟨u, hu, hxu.symm⟩
  · right
    have : x ∈ store.filter (fun it => listPre r.snapshotPre it.SK) :=
      List.mem_filter.mpr ⟨hx, h⟩
    rw [hsnap] at this
    obtain ⟨u, hu, hxu⟩ := List.mem_map.mp this
    exact ⟨u, hu, hxu.symm⟩

/-- One successful commit round preserves the cadence invariant. -/
theorem sysStep_inv (r : Repo) (id : List Char) (p : Entity × List WriteItem)
    (h : Inv r id p) (stp : Nat × Bool) : Inv r id (sysStep r p stp) := by
  obtain ⟨e, store⟩ := p
  obtain ⟨k, force⟩ := stp
  obtain ⟨hid, hne, hee, hst, hsvle, hdisj, hpk, hshape, hev, svs, hsnap, hpw, hsle, hlast⟩ := h
  simp only at hid hne hee hst hsvle hdisj hpk hshape hev hsnap hpw hsle hlast
  have hd := digestK_spec k e
  set e1 := e.digestK k with he1
  have h1id : e1.id = id := hd.1.trans hid
  have h1v : e1.version = e.version + k := hd.2.1
  have h1sv : e1.snapshotVersion = e.snapshotVersion := hd.2.2.1
  have h1st : e1.state = 0 := hd.2.2.2.1.trans hst
  have h1ee : e1.eventsToEmit = [] := hd.2.2.2.2.1.trans hee
  have h1ne : e1.newEvents = (natRange (e.version + 1) k).map (fun v => Event.mk "m" 0 v) := by
    rw [hd.2.2.2.2.2, hne]
    simp
  set newItems := (natRange (e.version + 1) k).map (fun w => r.evItem id ⟨"m", 0, w⟩)
    with hnewItems
  have hitems : e1.newEvents.map (fun ev => r.evItem e1.id ev) = newItems := by
    rw [h1ne, h1id, List.map_map, hnewItems]
    rfl
  have hfresh : ∀ i ∈ newItems, ∀ x ∈ store, sameKey x i = false := by
    intro i hi x hx
    obtain ⟨w, hw, rfl⟩ := List.mem_map.mp hi
    have hwv : e.version + 1 ≤ w := ((mem_natRange _ _ _).mp hw).1
    rcases store_item_shape hshape hev hsnap hx with ⟨u, hu, rfl⟩ | ⟨u, hu, rfl⟩
    · have huv : u < e.version + 1 := by
        have := ((mem_natRange _ _ _).mp hu).2
        omega
      apply sameKey_of_sk_ne
      show r.eventSk u ≠ r.eventSk w
      intro hh
      have := eventSk_inj r hh
      omega
    · apply sameKey_of_sk_ne
      show r.snapSk u ≠ r.eventSk w
      exact fun hh => eventSk_ne_snapSk r w u hh.symm
  have hpairwise : List.Pairwise (fun a b => sameKey a b = false) newItems := by
    rw [hnewItems, List.pairwise_map]
    refine List.Pairwise.imp ?_ (natRange_pairwise_lt _ _)
    intro a b hab
    apply sameKey_of_sk_ne
    show r.eventSk a ≠ r.eventSk b
    intro hh
    have := eventSk_inj r hh
    omega
  have hstore1 : putItems store (e1.newEvents.map (fun ev => r.evItem e1.id ev)) =
      store ++ newItems := by
    rw [hitems]
    exact putItems_fresh _ _ hfresh hpairwise
  have hrange : natRange 1 (e.version + k) =
      natRange 1 e.version ++ natRange (e.version + 1) k := by
    rw [natRange_append e.version 1 k, Nat.add_comm 1 e.version]
  have hev1 : (store ++ newItems).filter (fun it => listPre r.eventPre it.SK) =
      (natRange 1 (e.version + k)).map (fun w => r.evItem id ⟨"m", 0, w⟩) := by
    rw [List.filter_append, hev, hrange, List.map_append]
    congr 1
    refine List.filter_eq_self.mpr ?_
    intro x hx
    obtain ⟨w, _, rfl⟩ := List.mem_map.mp hx
    exact listPre_eventPre_eventSk r w
  have hsnap1 : (store ++ newItems).filter (fun it => listPre r.snapshotPre it.SK) =
      svs.map (fun u => r.snapItem id u 0) := by
    rw [List.filter_append, hsnap]
    have : newItems.filter (fun it => listPre r.snapshotPre it.SK) = [] := by
      refine List.filter_eq_nil_iff.mpr ?_
      intro x hx
      obtain ⟨w, _, rfl⟩ := List.mem_map.mp hx
      simp [Repo.evItem, listPre_snapshotPre_eventSk r w]
    rw [this, List.append_nil]
  have hpk1 : ∀ it ∈ store ++ newItems, it.PK = r.pk id := by
    intro it hit
    rcases List.mem_append.mp hit with hit | hit
    · exact hpk it hit
    · obtain ⟨w, _, rfl⟩ := List.mem_map.mp hit
      rfl
  have hshape1 : ∀ it ∈ store ++ newItems,
      listPre r.eventPre it.SK = true ∨ listPre r.snapshotPre it.SK = true := by
    intro it hit
    rcases List.mem_append.mp hit with hit | hit
    · exact hshape it hit
    · obtain ⟨w, _, rfl⟩ := List.mem_map.mp hit
      exact Or.inl (listPre_eventPre_eventSk r w)
  by_cases hc : force = true ∨ e.snapshotVersion + r.snapshotFrequency ≤ e.version + k
  · -- a snapshot is staged at the new version
    have hc1 : force = true ∨ e1.snapshotVersion + r.snapshotFrequency ≤ e1.version := by
      rw [h1sv, h1v]
      exact hc
    set nv := e.version + k with hnv
    have hsnapNew : (⟨r.pk e1.snapshot.1.id, r.snapSk e1.snapshot.1.snapshotVersion,
        ItemData.snap e1.snapshot.2⟩ : WriteItem) = r.snapItem id nv 0 := by
      simp [Entity.snapshot, Repo.snapItem, h1id, h1v, h1st]
    have hstage : r.stageCommit e1 force =
        (e1.snapshot.1, e1.newEvents.map (fun ev => r.evItem e1.id ev) ++
          [r.snapItem id nv 0]) := by
      rw [Repo.stageCommit, if_pos hc1, ← hsnapNew]
    have houtE : (r.commit e1 force store true).entity =
        { e1.snapshot.1 with eventsToEmit := [], newEvents := [] } := by
      rw [Repo.commit, hstage, if_pos rfl]
    have houtS : (r.commit e1 force store true).store =
        putItem (store ++ newItems) (r.snapItem id nv 0) := by
      rw [Repo.commit, hstage, if_pos rfl]
      show putItems store (e1.newEvents.map (fun ev => r.evItem e1.id ev) ++
        [r.snapItem id nv 0]) = _
      rw [putItems, List.foldl_append]
      show putItems (putItems store (e1.newEvents.map (fun ev => r.evItem e1.id ev)))
        [r.snapItem id nv 0] = _
      rw [hstore1]
      rfl
    have hES : e1.snapshot.1 = { e1 with snapshotVersion := e1.version } := rfl
    refine ⟨?_, ?_, ?_, ?_, ?_, ?_, ?_, ?_, ?_, ?_⟩
    · show (r.commit e1 force store true).entity.id = id
      rw [houtE, hES]
      exact h1id
    · show (r.commit e1 force store true).entity.newEvents = []
      rw [houtE]
    · show (r.commit e1 force store true).entity.eventsToEmit = []
      rw [houtE]
    · show (r.commit e1 force store true).entity.state = 0
      rw [houtE, hES]
      exact h1st
    · show (r.commit e1 force store true).entity.snapshotVersion ≤
        (r.commit e1 force store true).entity.version
      rw [houtE, hES]
    · left
      show (r.commit e1 force store true).entity.version =
        (r.commit e1 force store true).entity.snapshotVersion
      rw [houtE, hES]
    · show ∀ it ∈ (r.commit e1 force store true).store, it.PK = r.pk id
      rw [houtS]
      intro it hit
      rcases List.mem_append.mp hit with hit | hit
      · exact hpk1 it (List.mem_of_mem_filter hit)
      · rw [List.mem_singleton.mp hit]
        rfl
    · show ∀ it ∈ (r.commit e1 force store true).store,
        listPre r.eventPre it.SK = true ∨ listPre r.snapshotPre it.SK = true
      rw [houtS]
      intro it hit
      rcases List.mem_append.mp hit with hit | hit
      · exact hshape1 it (List.mem_of_mem_filter hit)
      · rw [List.mem_singleton.mp hit]
        exact Or.inr (listPre_snapshotPre_snapSk r nv)
    · show (r.commit e1 force store true).store.filter
          (fun it => listPre r.eventPre it.SK) =
        (natRange 1 (r.commit e1 force store true).entity.version).map
          (fun w => r.evItem id ⟨"m", 0, w⟩)
      rw [houtS, houtE, hES, filter_putItem, hev1]
      have hif : listPre r.eventPre (r.snapItem id nv 0).SK = false :=
        listPre_eventPre_snapSk r nv
      rw [if_neg (by simp [hif])]
      rw [List.append_nil, List.filter_eq_self.mpr]
      · show _ = (natRange 1 e1.version).map _
        rw [h1v]
      · intro x hx
        rw [List.mem_map] at hx
        obtain ⟨w, _, rfl⟩ := hx
        have : (r.evItem id ⟨"m", 0, w⟩).SK ≠ (r.snapItem id nv 0).SK :=
          eventSk_ne_snapSk r w nv
        simp [sameKey_of_sk_ne this]
    · -- the snapshot chain gains `nv`, dropping a previous snapshot at the same key
      refine ⟨svs.filter (fun u => !(decide (u = nv))) ++ [nv], ?_, ?_, ?_, ?_⟩
      · show (r.commit e1 force store true).store.filter
            (fun it => listPre r.snapshotPre it.SK) = _
        rw [houtS, filter_putItem, hsnap1]
        have hif : listPre r.snapshotPre (r.snapItem id nv 0).SK = true :=
          listPre_snapshotPre_snapSk r nv
        rw [if_pos hif, List.filter_map, List.map_append]
        congr 1
        show (svs.filter
            ((fun x => !(sameKey x (r.snapItem id nv 0))) ∘
              (fun u => r.snapItem id u 0))).map _ = _
        congr 1
        refine List.filter_congr ?_
        intro u _
        show (!(sameKey (r.snapItem id u 0) (r.snapItem id nv 0))) = (!(decide (u = nv)))
        rw [sameKey_snapItem_snapItem]
      · refine (List.pairwise_append).mpr ⟨List.Pairwise.filter _ hpw, by simp, ?_⟩
        intro a ha b hb
        rw [List.mem_singleton.mp hb]
        have ha' := List.of_mem_filter ha
        have ha'' : a ≠ nv := by
          simpa using ha'
        have : a ≤ e.snapshotVersion := hsle a (List.mem_of_mem_filter ha)
        have : a ≤ nv := by
          rw [hnv]
          omega
        omega
      · intro u hu
        rcases List.mem_append.mp hu with hu | hu
        · have h1 : u ≤ e.snapshotVersion := hsle u (List.mem_of_mem_filter hu)
          show u ≤ (r.commit e1 force store true).entity.snapshotVersion
          rw [houtE, hES]
          show u ≤ e1.version
          rw [h1v]
          omega
        · rw [List.mem_singleton.mp hu]
          show nv ≤ (r.commit e1 force store true).entity.snapshotVersion
          rw [houtE, hES]
          show nv ≤ e1.version
          rw [h1v]
      · right
        show (svs.filter (fun u => !(decide (u = nv))) ++ [nv]).getLast? =
          some (r.commit e1 force store true).entity.snapshotVersion
        rw [houtE, hES]
        show _ = some e1.version
        rw [h1v]
        simp
  · -- no snapshot staged: only the events are appended
    have hc1 : ¬ (force = true ∨ e1.snapshotVersion + r.snapshotFrequency ≤ e1.version) := by
      rw [h1sv, h1v]
      exact hc
    have hstage : r.stageCommit e1 force =
        (e1, e1.newEvents.map (fun ev => r.evItem e1.id ev)) := by
      rw [Repo.stageCommit, if_neg hc1]
    have houtE : (r.commit e1 force store true).entity =
        { e1 with eventsToEmit := [], newEvents := [] } := by
      rw [Repo.commit, hstage, if_pos rfl]
    have houtS : (r.commit e1 force store true).store = store ++ newItems := by
      rw [Repo.commit, hstage, if_pos rfl]
      exact hstore1
    push_neg at hc
    refine ⟨?_, ?_, ?_, ?_, ?_, ?_, ?_, ?_, ?_, ?_⟩
    · show (r.commit e1 force store true).entity.id = id
      rw [houtE]
      exact h1id
    · show (r.commit e1 force store true).entity.newEvents = []
      rw [houtE]
    · show (r.commit e1 force store true).entity.eventsToEmit = []
      rw [houtE]
    · show (r.commit e1 force store true).entity.state = 0
      rw [houtE]
      exact h1st
    · show (r.commit e1 force store true).entity.snapshotVersion ≤
        (r.commit e1 force store true).entity.version
      rw [houtE]
      show e1.snapshotVersion ≤ e1.version
      rw [h1sv, h1v]
      omega
    · right
      show (r.commit e1 force store true).entity.version <
        (r.commit e1 force store true).entity.snapshotVersion + r.snapshotFrequency
      rw [houtE]
      show e1.version < e1.snapshotVersion + r.snapshotFrequency
      rw [h1sv, h1v]
      exact hc.2
    · show ∀ it ∈ (r.commit e1 force store true).store, it.PK = r.pk id
      rw [houtS]
      exact hpk1
    · show ∀ it ∈ (r.commit e1 force store true).store,
        listPre r.eventPre it.SK = true ∨ listPre r.snapshotPre it.SK = true
      rw [houtS]
      exact hshape1
    · show (r.commit e1 force store true).store.filter
          (fun it => listPre r.eventPre it.SK) =
        (natRange 1 (r.commit e1 force store true).entity.version).map
          (fun w => r.evItem id ⟨"m", 0, w⟩)
      rw [houtS, houtE, hev1]
      show _ = (natRange 1 e1.version).map _
      rw [h1v]
    · refine ⟨svs, ?_, hpw, ?_, ?_⟩
      · show (r.commit e1 force store true).store.filter
            (fun it => listPre r.snapshotPre it.SK) = _
        rw [houtS]
        exact hsnap1
      · intro u hu
        show u ≤ (r.commit e1 force store true).entity.snapshotVersion
        rw [houtE]
        show u ≤ e1.snapshotVersion
        rw [h1sv]
        exact hsle u hu
      · show svs = [] ∧ (r.commit e1 force store true).entity.snapshotVersion = 0 ∨
          svs.getLast? = some (r.commit e1 force store true).entity.snapshotVersion
        rw [houtE]
        show svs = [] ∧ e1.snapshotVersion = 0 ∨ svs.getLast? = some e1.snapshotVersion
        rw [h1sv]
        exact hlast

/-- The invariant holds for a fresh entity over an empty store. -/
theorem inv_init (r : Repo) (id : List Char) : Inv r id (Entity.fresh id, []) := by
  refine ⟨rfl, rfl, rfl, rfl, le_refl _, Or.inl rfl, ?_, ?_, rfl, [], rfl, ?_, ?_, ?_⟩
  · intro it hit
    simp at hit
  · intro it hit
    simp at hit
  · simp
  · intro v hv
    simp at hv
  · exact Or.inl ⟨rfl, rfl⟩

/-- The invariant holds after any sequence of successful commits. -/
theorem runSystem_inv (r : Repo) (id : List Char) (steps : List (Nat × Bool)) :
    Inv r id (runSystem r id steps) := by
  have main : ∀ (l : List (Nat × Bool)) (p : Entity × List WriteItem), Inv r id p →
      Inv r id (l.foldl (sysStep r) p) := by
    intro l
    induction l with
    | nil => intro p hp; exact hp
    | cons a t ih =>
        intro p hp
        exact ih (sysStep r p a) (sysStep_inv r id p hp a)
  exact main steps _ (inv_init r id)

theorem head?_take_one (l : List WriteItem) : (l.take 1).head? = l.head? := by
  cases l <;> rfl

theorem mem_of_getLast? : ∀ (l : List Nat) (a : Nat), l.getLast? = some a → a ∈ l := by
  intro l
  induction l with
  | nil => intro a h; simp at h
  | cons x t ih =>
      intro a h
      cases t with
      | nil =>
          simp at h
          simp [h]
      | cons y s =>
          rw [List.getLast?_cons_cons] at h
          exact List.mem_cons_of_mem _ (ih a h)

theorem foldr_max_le (l : List Nat) (m : Nat) (h : ∀ x ∈ l, x ≤ m) :
    l.foldr max 0 ≤ m := by
  induction l with
  | nil => simp
  | cons a t ih =>
      simp only [List.foldr_cons]
      exact max_le (h a (by simp)) (ih (fun x hx => h x (by simp [hx])))

theorem foldr_max_eq_of_mem (l : List Nat) (m : Nat) (hm : m ∈ l) (h : ∀ x ∈ l, x ≤ m) :
    l.foldr max 0 = m := by
  induction l with
  | nil => simp at hm
  | cons a t ih =>
      simp only [List.foldr_cons]
      rcases List.mem_cons.mp hm with hm | hm
      · have hle := foldr_max_le t m (fun x hx => h x (by simp [hx]))
        omega
      · have hta := ih hm (fun x hx => h x (by simp [hx]))
        have haa : a ≤ m := h a (by simp)
        omega

theorem filterMap_version_map_evItem (r : Repo) (id : List Char) (vs : List Nat) :
    ((vs.map (fun w => r.evItem id ⟨"m", 0, w⟩)).filterMap
      (fun it => (it.data.asEv).map (fun ev => ev.version))) = vs := by
  rw [List.filterMap_map]
  have hgf : ((fun it => (it.data.asEv).map (fun ev => ev.version)) ∘
      (fun w => r.evItem id ⟨"m", 0, w⟩)) = some := rfl
  rw [hgf, List.filterMap_some]

theorem filterMap_asEv_map_evItem (r : Repo) (id : List Char) (vs : List Nat) :
    ((vs.map (fun w => r.evItem id ⟨"m", 0, w⟩)).filterMap (fun it => it.data.asEv)) =
      vs.map (fun w => Event.mk "m" 0 w) := by
  rw [List.filterMap_map]
  have hgf : ((fun it => it.data.asEv) ∘ (fun w => r.evItem id ⟨"m", 0, w⟩)) =
      some ∘ (fun w => Event.mk "m" 0 w) := rfl
  rw [hgf, List.filterMap_eq_map]

theorem filterMap_version_map_snapItem (r : Repo) (id : List Char) (us : List Nat) :
    ((us.map (fun u => r.snapItem id u 0)).filterMap
      (fun it => (it.data.asSnap).map (fun s => s.version))) = us := by
  rw [List.filterMap_map]
  have hgf : ((fun it => (it.data.asSnap).map (fun s => s.version)) ∘
      (fun u => r.snapItem id u 0)) = some := rfl
  rw [hgf, List.filterMap_some]

theorem filter_natRange_gt (sv v : Nat) (hsv : sv ≤ v) :
    (natRange 1 v).filter (fun x => decide (sv < x)) = natRange (sv + 1) (v - sv) := by
  have hsplit : natRange 1 v = natRange 1 sv ++ natRange (sv + 1) (v - sv) := by
    have hv : v = sv + (v - sv) := by omega
    calc natRange 1 v = natRange 1 (sv + (v - sv)) := by rw [← hv]
      _ = natRange 1 sv ++ natRange (1 + sv) (v - sv) := natRange_append sv 1 (v - sv)
      _ = natRange 1 sv ++ natRange (sv + 1) (v - sv) := by rw [Nat.add_comm 1 sv]
  rw [hsplit, List.filter_append,
    List.filter_eq_nil_iff.mpr, List.filter_eq_self.mpr, List.nil_append]
  · intro x hx
    have := (mem_natRange _ _ _).mp hx
    simp
    omega
  · intro x hx
    have := (mem_natRange _ _ _).mp hx
    simp
    omega

/-- The descending event query on an invariant store is the reverse of the
ascending event-item list, truncated to the limit. -/
theorem queryDesc_events_of_inv (r : Repo) (id : List Char) (store : List WriteItem)
    (v : Nat) (limit : Nat)
    (hpk : ∀ it ∈ store, it.PK = r.pk id)
    (hev : store.filter (fun it => listPre r.eventPre it.SK) =
      (natRange 1 v).map (fun w => r.evItem id ⟨"m", 0, w⟩))
    (hbound : v < 10 ^ 15) :
    queryDesc store (r.pk id) r.eventPre limit =
      (((natRange 1 v).map (fun w => r.evItem id ⟨"m", 0, w⟩)).reverse).take limit := by
  rw [queryDesc]
  have hfe : store.filter (fun it => it.PK == r.pk id && listPre r.eventPre it.SK) =
      store.filter (fun it => listPre r.eventPre it.SK) := by
    refine List.filter_congr ?_
    intro it hit
    rw [beq_iff_eq.mpr (hpk it hit), Bool.true_and]
  rw [hfe, hev, sortDescBy_of_ascending]
  rw [List.pairwise_map]
  refine List.Pairwise.imp_of_mem ?_ (natRange_pairwise_lt _ _)
  intro a b ha hb hab
  have hav : a < 10 ^ 15 := by
    have := ((mem_natRange _ _ _).mp ha).2
    omega
  have hbv : b < 10 ^ 15 := by
    have := ((mem_natRange _ _ _).mp hb).2
    omega
  show charListLe (r.eventSk b) (r.eventSk a) = false
  cases hcl : charListLe (r.eventSk b) (r.eventSk a) with
  | false => rfl
  | true =>
      have : b ≤ a := (sortKey_le_iff hbv hav).mp hcl
      omega

/-- The descending snapshot query on an invariant store is the reverse of the
ascending snapshot-item list, truncated to the limit. -/
theorem queryDesc_snaps_of_inv (r : Repo) (id : List Char) (store : List WriteItem)
    (svs : List Nat) (bound : Nat) (limit : Nat)
    (hpk : ∀ it ∈ store, it.PK = r.pk id)
    (hsnap : store.filter (fun it => listPre r.snapshotPre it.SK) =
      svs.map (fun u => r.snapItem id u 0))
    (hpw : List.Pairwise (· < ·) svs)
    (hle : ∀ u ∈ svs, u ≤ bound)
    (hbound : bound < 10 ^ 15) :
    queryDesc store (r.pk id) r.snapshotPre limit =
      ((svs.map (fun u => r.snapItem id u 0)).reverse).take limit := by
  rw [queryDesc]
  have hfe : store.filter (fun it => it.PK == r.pk id && listPre r.snapshotPre it.SK) =
      store.filter (fun it => listPre r.snapshotPre it.SK) := by
    refine List.filter_congr ?_
    intro it hit
    rw [beq_iff_eq.mpr (hpk it hit), Bool.true_and]
  rw [hfe, hsnap, sortDescBy_of_ascending]
  rw [List.pairwise_map]
  refine List.Pairwise.imp_of_mem ?_ hpw
  intro a b ha hb hab
  have hav : a < 10 ^ 15 := lt_of_le_of_lt (hle a ha) hbound
  have hbv : b < 10 ^ 15 := lt_of_le_of_lt (hle b hb) hbound
  show charListLe (r.snapSk b) (r.snapSk a) = false
  cases hcl : charListLe (r.snapSk b) (r.snapSk a) with
  | false => rfl
  | true =>
      have : b ≤ a := (sortKey_le_iff hbv hav).mp hcl
      omega

/-- C7: after every sequence of successful commits with cadence
`snapshotFrequency`, at most `snapshotFrequency` persisted events have a
version greater than the latest persisted snapshot's version, and `get`'s
descending event query with limit `snapshotFrequency` retrieves that entire
event tail: the events `get` passes to the constructor are exactly the
persisted events above the latest snapshot version (in the query's
descending order). Versions must stay below `10^15`, the range on which the
padded sort-key encoding is order-preserving. -/
theorem snapshot_cadence_bounds_event_tail (r : Repo) (id : List Char)
    (steps : List (Nat × Bool))
    (hbound : (runSystem r id steps).1.version < 10 ^ 15) :
    (((storeEventVersions r (runSystem r id steps).2).filter
        (fun x => decide (latestSnapVersion r (runSystem r id steps).2 < x))).length
      ≤ r.snapshotFrequency) ∧
    ((r.get id (runSystem r id steps).2).2.map (fun ev => ev.version) =
      ((storeEventVersions r (runSystem r id steps).2).filter
        (fun x => decide (latestSnapVersion r (runSystem r id steps).2 < x))).reverse) := by
  obtain ⟨hid, hne, hee, hst, hsvle, hdisj, hpk, hshape, hev, svs, hsnap, hpw, hsle, hlast⟩ :=
    runSystem_inv r id steps
  have hsev : storeEventVersions r (runSystem r id steps).2 =
      natRange 1 (runSystem r id steps).1.version := by
    rw [storeEventVersions, hev, filterMap_version_map_evItem]
  have hlsv : latestSnapVersion r (runSystem r id steps).2 =
      (runSystem r id steps).1.snapshotVersion := by
    rw [latestSnapVersion, hsnap, filterMap_version_map_snapItem]
    rcases hlast with ⟨hsvnil, hsv0⟩ | hlast
    · rw [hsvnil, hsv0]
      rfl
    · exact foldr_max_eq_of_mem svs _ (mem_of_getLast? svs _ hlast) hsle
  have hq_snap := queryDesc_snaps_of_inv r id (runSystem r id steps).2 svs
    (runSystem r id steps).1.snapshotVersion 1 hpk hsnap hpw hsle
    (lt_of_le_of_lt hsvle hbound)
  have hq_ev := queryDesc_events_of_inv r id (runSystem r id steps).2
    (runSystem r id steps).1.version r.snapshotFrequency hpk hev hbound
  have hsnapO : (queryDesc (runSystem r id steps).2 (r.pk id) r.snapshotPre 1).head?.bind
      (fun it => it.data.asSnap) =
      svs.getLast?.map (fun u => SnapshotPayload.mk id u u 0) := by
    rw [hq_snap, head?_take_one, ← List.map_reverse, List.head?_map, List.head?_reverse]
    cases svs.getLast? with
    | none => rfl
    | some u => rfl
  have hsnapVer : ((((queryDesc (runSystem r id steps).2 (r.pk id) r.snapshotPre 1).head?.bind
      (fun it => it.data.asSnap)).map (fun s => s.version)).getD 0) =
      (runSystem r id steps).1.snapshotVersion := by
    rw [hsnapO]
    rcases hlast with ⟨hsvnil, hsv0⟩ | hlast
    · rw [hsvnil]
      simp [hsv0]
    · rw [hlast]
      rfl
  have hevents : (r.get id (runSystem r id steps).2).2 =
      (((natRange 1 (runSystem r id steps).1.version).reverse.take
          r.snapshotFrequency).filter
        (fun w => decide ((runSystem r id steps).1.snapshotVersion < w))).map
        (fun w => Event.mk "m" 0 w) := by
    show (((queryDesc (runSystem r id steps).2 (r.pk id) r.eventPre
          r.snapshotFrequency).filterMap (fun it => it.data.asEv)).filter
        (fun ev => decide (((((queryDesc (runSystem r id steps).2 (r.pk id)
          r.snapshotPre 1).head?.bind (fun it => it.data.asSnap)).map
            (fun s => s.version)).getD 0) < ev.version))) = _
    rw [hsnapVer, hq_ev, ← List.map_reverse, ← List.map_take, filterMap_asEv_map_evItem,
      List.filter_map]
    rfl
  rw [hsev, hlsv]
  have hsvv : (runSystem r id steps).1.snapshotVersion ≤ (runSystem r id steps).1.version :=
    hsvle
  have hfil := filter_natRange_gt (runSystem r id steps).1.snapshotVersion
    (runSystem r id steps).1.version hsvv
  have htail_le : (runSystem r id steps).1.version -
      (runSystem r id steps).1.snapshotVersion ≤ r.snapshotFrequency := by
    rcases hdisj with h | h <;> omega
  constructor
  · rw [hfil, natRange_length]
    exact htail_le
  · rw [hevents, List.map_map]
    have hcomp : ((fun ev => ev.version) ∘ (fun w => Event.mk "m" 0 w)) =
        (fun w : Nat => w) := rfl
    rw [hcomp, List.map_id', hfil]
    have hsplit : natRange 1 (runSystem r id steps).1.version =
        natRange 1 (runSystem r id steps).1.snapshotVersion ++
          natRange ((runSystem r id steps).1.snapshotVersion + 1)
            ((runSystem r id steps).1.version -
              (runSystem r id steps).1.snapshotVersion) := by
      have hv : (runSystem r id steps).1.version =
          (runSystem r id steps).1.snapshotVersion +
            ((runSystem r id steps).1.version -
              (runSystem r id steps).1.snapshotVersion) := by
        omega
      calc natRange 1 (runSystem r id steps).1.version
          = natRange 1 ((runSystem r id steps).1.snapshotVersion +
              ((runSystem r id steps).1.version -
                (runSystem r id steps).1.snapshotVersion)) := by rw [← hv]
        _ = _ := by
              rw [natRange_append, Nat.add_comm 1]
    rw [hsplit, List.reverse_append, List.take_append_eq_append_take,
      List.take_of_length_le (by
        rw [List.length_reverse, natRange_length]
        exact htail_le),
      List.filter_append]
    rw [List.filter_eq_self.mpr, List.filter_eq_nil_iff.mpr, List.append_nil]
    · intro x hx
      have hx' : x ∈ natRange 1 (runSystem r id steps).1.snapshotVersion := by
        have := List.mem_of_mem_take hx
        exact List.mem_reverse.mp this
      have := (mem_natRange _ _ _).mp hx'
      simp
      omega
    · intro x hx
      have hx' : x ∈ natRange ((runSystem r id steps).1.snapshotVersion + 1)
          ((runSystem r id steps).1.version -
            (runSystem r id steps).1.snapshotVersion) := List.mem_reverse.mp hx
      have := (mem_natRange _ _ _).mp hx'
      simp
      omega

/-- Witness for `snapshot_cadence_bounds_event_tail`: one successful commit of
two events under frequency 10. -/
theorem snapshot_cadence_bounds_event_tail_witness :
    (runSystem rT ['e'] [(2, false)]).1.version < 10 ^ 15 ∧
    ((((storeEventVersions rT (runSystem rT ['e'] [(2, false)]).2).filter
        (fun x => decide (latestSnapVersion rT (runSystem rT ['e'] [(2, false)]).2 < x))).length
      ≤ rT.snapshotFrequency) ∧
    ((rT.get ['e'] (runSystem rT ['e'] [(2, false)]).2).2.map (fun ev => ev.version) =
      ((storeEventVersions rT (runSystem rT ['e'] [(2, false)]).2).filter
        (fun x => decide (latestSnapVersion rT (runSystem rT ['e'] [(2, false)]).2 < x))).reverse)) :=
  ⟨by decide, snapshot_cadence_bounds_event_tail rT ['e'] [(2, false)] (by decide)⟩

end SourcedDynamo
